import Mathlib

/-!
Shallow embedding of the rust-order-execution-engine core
(src/types/mod.rs, src/matching/mod.rs, src/engine/mod.rs).

Modelling conventions:
- u64 values (quantities, price ticks, latency samples) are Nat; the only
  subtraction performed by the source is `saturating_sub`, which on values
  below 2^64 coincides with truncated Nat subtraction, and the additions
  performed by the source stay far below 2^64 on the books the engine can
  build, so no explicit modular reduction is needed.
- Uuid (128-bit random identity) is Nat, supplied as an explicit argument
  to the constructors instead of drawn from a RNG.
- Prices: the source stores Option f64 on the order and keys the book at
  (price.unwrap_or(0.0) * 100.0) as u64.  The model stores the integer
  price tick (price times 100) directly, which is the only form the book
  logic ever consults; the f64/100.0 boundary conversion of trade prices
  and best bid/ask is a presentation detail outside the integer model.
- BTreeMap<u64, VecDeque<Order>> is an association list
  List (Nat times List Order) with map semantics (first binding of a key is
  the binding); keys().next_back()/next() are max/min over all keys, so the
  physical position of entries is irrelevant, as in the source.
- Wall-clock timestamps, serde, logging, channels and the tokio worker are
  out of the model; process_order is modelled as the pure state transition
  it performs on the books map and the metrics counters.
-/

namespace OrderEngine

/-- Side enum of src/types/mod.rs. -/
inductive Side where
  | Buy
  | Sell
deriving DecidableEq, Repr

/-- OrderType enum of src/types/mod.rs. -/
inductive OrderType where
  | Market
  | Limit
  | StopLoss
  | StopLimit
deriving DecidableEq, Repr

/-- OrderStatus enum of src/types/mod.rs. -/
inductive OrderStatus where
  | Pending
  | PartiallyFilled
  | Filled
  | Cancelled
  | Rejected
deriving DecidableEq, Repr

/-- Order struct of src/types/mod.rs.  `price` is the integer price tick
(the source f64 price times the scale 100); `stop_price` and `timestamp`
are never read by the core logic and are omitted. -/
structure Order where
  id : Nat
  symbol : String
  side : Side
  order_type : OrderType
  quantity : Nat
  price : Option Nat
  filled_quantity : Nat
  status : OrderStatus
  client_id : String
deriving DecidableEq, Repr

/-- Order::new_market, with the random Uuid supplied as `id`. -/
def Order.new_market (id : Nat) (symbol : String) (side : Side) (quantity : Nat)
    (client_id : String) : Order :=
  { id := id, symbol := symbol, side := side, order_type := OrderType.Market,
    quantity := quantity, price := none, filled_quantity := 0,
    status := OrderStatus.Pending, client_id := client_id }

/-- Order::new_limit, with the random Uuid supplied as `id` and the price
given as an integer tick. -/
def Order.new_limit (id : Nat) (symbol : String) (side : Side) (quantity : Nat)
    (price : Nat) (client_id : String) : Order :=
  { id := id, symbol := symbol, side := side, order_type := OrderType.Limit,
    quantity := quantity, price := some price, filled_quantity := 0,
    status := OrderStatus.Pending, client_id := client_id }

/-- Order::remaining_quantity: quantity.saturating_sub(filled_quantity);
Nat subtraction is exactly u64 saturating_sub for values below 2^64. -/
def Order.remaining_quantity (o : Order) : Nat :=
  o.quantity - o.filled_quantity

/-- Order::is_fully_filled: filled_quantity >= quantity. -/
def Order.is_fully_filled (o : Order) : Bool :=
  decide (o.quantity ≤ o.filled_quantity)

/-- Trade struct of src/types/mod.rs; the random trade id and the timestamp
are omitted, `price` is the integer tick (the source stores tick/100.0). -/
structure Trade where
  buy_order_id : Nat
  sell_order_id : Nat
  symbol : String
  quantity : Nat
  price : Nat
deriving DecidableEq, Repr

/-- Trade::new. -/
def Trade.new (buy_order_id sell_order_id : Nat) (symbol : String)
    (quantity price : Nat) : Trade :=
  { buy_order_id := buy_order_id, sell_order_id := sell_order_id,
    symbol := symbol, quantity := quantity, price := price }

/-- One side of the book: BTreeMap from price tick to FIFO queue of orders,
modelled as an association list with map semantics. -/
abbrev Ladder : Type := List (Nat × List Order)

/-- Queue stored under key `k` (empty if the key is absent); the first
binding of a key is the binding, as in a map with unique keys. -/
def queueAt (k : Nat) : Ladder → List Order
  | [] => []
  | (k', q) :: rest => if k' = k then q else queueAt k rest

/-- BTreeMap::entry(k).or_insert_with(VecDeque::new).push_back(o). -/
def pushAt (k : Nat) (o : Order) : Ladder → Ladder
  | [] => [(k, [o])]
  | (k', q) :: rest =>
    if k' = k then (k', q ++ [o]) :: rest else (k', q) :: pushAt k o rest

/-- BTreeMap::remove(&k): drop the binding of `k`. -/
def removeKey (k : Nat) : Ladder → Ladder
  | [] => []
  | (k', q) :: rest => if k' = k then rest else (k', q) :: removeKey k rest

/-- BTreeMap::insert(k, q): replace the binding of `k`, or add it. -/
def insertAt (k : Nat) (q : List Order) : Ladder → Ladder
  | [] => [(k, q)]
  | (k', q') :: rest =>
    if k' = k then (k, q) :: rest else (k', q') :: insertAt k q rest

/-- Greatest element of a list of keys, if any. -/
def keyMax? : List Nat → Option Nat
  | [] => none
  | k :: rest =>
    some (match keyMax? rest with
          | none => k
          | some m => max k m)

/-- Least element of a list of keys, if any. -/
def keyMin? : List Nat → Option Nat
  | [] => none
  | k :: rest =>
    some (match keyMin? rest with
          | none => k
          | some m => min k m)

/-- Keys of a ladder. -/
def ladderKeys (l : Ladder) : List Nat := l.map Prod.fst

/-- BTreeMap::keys().next_back(): the greatest key. -/
def maxKey? (l : Ladder) : Option Nat := keyMax? (ladderKeys l)

/-- BTreeMap::keys().next(): the least key. -/
def minKey? (l : Ladder) : Option Nat := keyMin? (ladderKeys l)

/-- Total number of resting orders in a ladder. -/
def ladderOrders (l : Ladder) : Nat := (l.map (fun e => e.2.length)).sum

/-- All resting orders of a ladder, in entry order. -/
def ordersOf (l : Ladder) : List Order := (l.map (fun e => e.2)).flatten

/-- OrderBook struct of src/matching/mod.rs. -/
structure OrderBook where
  symbol : String
  bids : Ladder
  asks : Ladder
deriving DecidableEq, Repr

/-- OrderBook::new. -/
def OrderBook.new (symbol : String) : OrderBook :=
  { symbol := symbol, bids := [], asks := [] }

/-- Price level key used by OrderBook::add_order:
(order.price.unwrap_or(0.0) * 100.0) as u64, with `price` already a tick. -/
def Order.priceLevel (o : Order) : Nat := o.price.getD 0

/-- OrderBook::add_order (src/matching/mod.rs lines 23-40). -/
def OrderBook.add_order (book : OrderBook) (o : Order) : OrderBook :=
  match o.side with
  | Side.Buy => { book with bids := pushAt o.priceLevel o book.bids }
  | Side.Sell => { book with asks := pushAt o.priceLevel o book.asks }

/-- Fill bookkeeping applied to one participant of a trade
(src/matching/mod.rs lines 73-88): add the traded quantity to
filled_quantity, then set the status to Filled when fully filled (the order
is then popped by the caller) and to PartiallyFilled otherwise. -/
def applyFill (o : Order) (q : Nat) : Order :=
  let o1 := { o with filled_quantity := o.filled_quantity + q }
  if o1.is_fully_filled then { o1 with status := OrderStatus.Filled }
  else { o1 with status := OrderStatus.PartiallyFilled }

/-- Body of one iteration of the inner matching loop
(src/matching/mod.rs lines 60-90): the traded quantity is the minimum of
the two remaining quantities, the trade is priced at the ask level tick,
and both participants receive the fill. -/
def fillStep (sym : String) (askTick : Nat) (bid ask : Order) :
    Trade × Order × Order :=
  let q := min bid.remaining_quantity ask.remaining_quantity
  (Trade.new bid.id ask.id sym q askTick, applyFill bid q, applyFill ask q)

/-- Inner while-loop of OrderBook::match_orders
(src/matching/mod.rs lines 57-95), with explicit fuel; every iteration of
the source loop pops at least one order, so fuel equal to the total queue
length (supplied by `fillLevel`) is never exhausted.  An order is popped
from the front of its queue exactly when it becomes fully filled. -/
def fillLevelGo (sym : String) (askTick : Nat) :
    Nat → List Order → List Order → List Trade × List Order × List Order
  | 0, bids, asks => ([], bids, asks)
  | _ + 1, [], asks => ([], [], asks)
  | _ + 1, b :: bs, [] => ([], b :: bs, [])
  | n + 1, b :: bs, a :: aa =>
    let s := fillStep sym askTick b a
    let bids1 := if s.2.1.is_fully_filled then bs else s.2.1 :: bs
    let asks1 := if s.2.2.is_fully_filled then aa else s.2.2 :: aa
    let r := fillLevelGo sym askTick n bids1 asks1
    (s.1 :: r.1, r.2.1, r.2.2)

/-- Inner matching loop at one crossed pair of levels, run to completion. -/
def fillLevel (sym : String) (askTick : Nat) (bids asks : List Order) :
    List Trade × List Order × List Order :=
  fillLevelGo sym askTick (bids.length + asks.length) bids asks

/-- Body of one iteration of the outer loop of OrderBook::match_orders
(src/matching/mod.rs lines 52-103): remove the best-bid and best-ask
levels, run the inner loop, and put back whichever queues are non-empty. -/
def matchFill (sym : String) (bp ap : Nat) (bids asks : Ladder) :
    List Trade × Ladder × Ladder :=
  let bidQ := queueAt bp bids
  let askQ := queueAt ap asks
  let bids1 := removeKey bp bids
  let asks1 := removeKey ap asks
  let r := fillLevel sym ap bidQ askQ
  let bids2 := if r.2.1.isEmpty then bids1 else insertAt bp r.2.1 bids1
  let asks2 := if r.2.2.isEmpty then asks1 else insertAt ap r.2.2 asks1
  (r.1, bids2, asks2)

/-- Outer loop of OrderBook::match_orders (src/matching/mod.rs lines
46-107), with explicit fuel; every crossed iteration consumes at least one
order or one level, so fuel equal to `bookMeasure` (supplied by
`OrderBook.match_orders`) is never exhausted. -/
def matchLoop (sym : String) : Nat → Ladder → Ladder → List Trade × Ladder × Ladder
  | 0, bids, asks => ([], bids, asks)
  | fuel + 1, bids, asks =>
    match maxKey? bids, minKey? asks with
    | some bp, some ap =>
      if ap ≤ bp then
        let s := matchFill sym bp ap bids asks
        let r := matchLoop sym fuel s.2.1 s.2.2
        (s.1 ++ r.1, r.2.1, r.2.2)
      else ([], bids, asks)
    | _, _ => ([], bids, asks)

/-- Termination measure of the outer matching loop: total resting orders
plus total price levels on both sides. -/
def bookMeasure (bids asks : Ladder) : Nat :=
  ladderOrders bids + bids.length + ladderOrders asks + asks.length

/-- OrderBook::match_orders: run the outer loop to completion and return
the trades in production order together with the updated book. -/
def OrderBook.match_orders (book : OrderBook) : List Trade × OrderBook :=
  let r := matchLoop book.symbol (bookMeasure book.bids book.asks) book.bids book.asks
  (r.1, { book with bids := r.2.1, asks := r.2.2 })

/-- Search one FIFO queue for the order with the given id
(orders.iter().position followed by orders.remove(pos)); the removed order
is returned with status Cancelled.  The level entry itself is kept even
when its queue becomes empty, exactly as in the source. -/
def cancelQueue (oid : Nat) : List Order → Option Order × List Order
  | [] => (none, [])
  | o :: rest =>
    if o.id = oid then (some { o with status := OrderStatus.Cancelled }, rest)
    else
      let r := cancelQueue oid rest
      (r.1, o :: r.2)

/-- Search every level of a ladder, in order, for the order with the given
id (the values_mut() scan of OrderBook::cancel_order). -/
def cancelLadder (oid : Nat) : Ladder → Option Order × Ladder
  | [] => (none, [])
  | (k, q) :: rest =>
    let rq := cancelQueue oid q
    match rq.1 with
    | some o => (some o, (k, rq.2) :: rest)
    | none =>
      let rr := cancelLadder oid rest
      (rr.1, (k, q) :: rr.2)

/-- OrderBook::cancel_order (src/matching/mod.rs lines 113-133): search
bids first, then asks. -/
def OrderBook.cancel_order (book : OrderBook) (oid : Nat) :
    Option Order × OrderBook :=
  let rb := cancelLadder oid book.bids
  match rb.1 with
  | some o => (some o, { book with bids := rb.2 })
  | none =>
    let ra := cancelLadder oid book.asks
    match ra.1 with
    | some o => (some o, { book with asks := ra.2 })
    | none => (none, book)

/-- OrderBook::best_bid, as an integer tick (the source divides by 100.0
for display). -/
def OrderBook.best_bid (book : OrderBook) : Option Nat := maxKey? book.bids

/-- OrderBook::best_ask, as an integer tick. -/
def OrderBook.best_ask (book : OrderBook) : Option Nat := minKey? book.asks

/-- OrderBook::depth: total number of resting orders on both sides. -/
def OrderBook.depth (book : OrderBook) : Nat :=
  ladderOrders book.bids + ladderOrders book.asks

/-- Metrics counters of ExecutionMetrics (src/types/mod.rs) touched by the
dispatcher; total_volume (an f64 accumulator) and the latency fields
(computed on snapshot from the sample buffer, see `latencySnapshot`) are
outside this integer state. -/
structure ExecutionMetrics where
  total_orders : Nat
  filled_orders : Nat
  cancelled_orders : Nat
  rejected_orders : Nat
  total_trades : Nat
deriving DecidableEq, Repr

/-- ExecutionMetrics::default(). -/
def ExecutionMetrics.init : ExecutionMetrics :=
  { total_orders := 0, filled_orders := 0, cancelled_orders := 0,
    rejected_orders := 0, total_trades := 0 }

/-- State owned by the dispatcher: the symbol-to-book map (HashMap in the
source, association list here) and the metrics counters. -/
structure EngineState where
  books : List (String × OrderBook)
  metrics : ExecutionMetrics
deriving DecidableEq, Repr

/-- Empty engine state. -/
def EngineState.init : EngineState :=
  { books := [], metrics := ExecutionMetrics.init }

/-- HashMap::entry(symbol).or_insert_with(OrderBook::new), read half. -/
def findBook (sym : String) : List (String × OrderBook) → OrderBook
  | [] => OrderBook.new sym
  | (s, b) :: rest => if s = sym then b else findBook sym rest

/-- Store the updated book back under its symbol. -/
def setBook (sym : String) (b : OrderBook) :
    List (String × OrderBook) → List (String × OrderBook)
  | [] => [(sym, b)]
  | (s, b') :: rest =>
    if s = sym then (sym, b) :: rest else (s, b') :: setBook sym b rest

/-- ExecutionEngine::process_order (src/engine/mod.rs lines 120-176) as a
pure state transition: validate, reject on zero quantity or a priceless
limit order, otherwise add the order to its book, match, and update the
counters; returns the produced trades (the source then sends them on the
trade channel). -/
def processOrder (st : EngineState) (order : Order) :
    EngineState × List Trade :=
  if order.quantity = 0 then
    ({ st with metrics :=
        { st.metrics with rejected_orders := st.metrics.rejected_orders + 1 } },
     [])
  else if order.order_type = OrderType.Limit ∧ order.price = none then
    ({ st with metrics :=
        { st.metrics with rejected_orders := st.metrics.rejected_orders + 1 } },
     [])
  else
    let book := findBook order.symbol st.books
    let book := book.add_order order
    let r := book.match_orders
    let m := { st.metrics with total_orders := st.metrics.total_orders + 1 }
    let m :=
      if r.1.isEmpty then m
      else { m with total_trades := m.total_trades + r.1.length,
                    filled_orders := m.filled_orders + 1 }
    ({ books := setBook order.symbol r.2 st.books, metrics := m }, r.1)

/-- ExecutionEngine::process_cancel (src/engine/mod.rs lines 178-197). -/
def processCancel (st : EngineState) (oid : Nat) (sym : String) : EngineState :=
  match st.books.lookup sym with
  | none => st
  | some book =>
    let r := book.cancel_order oid
    match r.1 with
    | some _ =>
      { books := setBook sym r.2 st.books,
        metrics := { st.metrics with
          cancelled_orders := st.metrics.cancelled_orders + 1 } }
    | none => { st with books := setBook sym r.2 st.books }

/-- Latency part of ExecutionEngine::get_metrics (src/engine/mod.rs lines
230-239): if the sample buffer is non-empty, sort ascending and read
avg = sum/n, p50 = s[n/2], p95 = s[(n*95)/100], p99 = s[(n*99)/100]. -/
def latencySnapshot (samples : List Nat) :
    Option (Nat × Nat × Nat × Nat) :=
  if samples.isEmpty then none
  else
    let s := List.insertionSort (· ≤ ·) samples
    let n := s.length
    some (s.sum / n, s.getD (n / 2) 0, s.getD ((n * 95) / 100) 0,
          s.getD ((n * 99) / 100) 0)

/-! ### Basic lemmas about ladders and fills -/

theorem keyMax?_mem {ks : List Nat} {k : Nat} (h : keyMax? ks = some k) :
    k ∈ ks := by
  induction ks with
  | nil => simp [keyMax?] at h
  | cons a rest ih =>
    unfold keyMax? at h
    cases hr : keyMax? rest with
    | none =>
      rw [hr] at h
      simp at h
      simp [h]
    | some m =>
      rw [hr] at h
      simp at h
      rcases Nat.le_total a m with hle | hle
      · have hk : k = m := by rw [← h, Nat.max_eq_right hle]
        subst hk
        exact List.mem_cons_of_mem _ (ih hr)
      · have hk : k = a := by rw [← h, Nat.max_eq_left hle]
        simp [hk]

theorem keyMin?_mem {ks : List Nat} {k : Nat} (h : keyMin? ks = some k) :
    k ∈ ks := by
  induction ks with
  | nil => simp [keyMin?] at h
  | cons a rest ih =>
    unfold keyMin? at h
    cases hr : keyMin? rest with
    | none =>
      rw [hr] at h
      simp at h
      simp [h]
    | some m =>
      rw [hr] at h
      simp at h
      rcases Nat.le_total a m with hle | hle
      · have hk : k = a := by rw [← h, Nat.min_eq_left hle]
        simp [hk]
      · have hk : k = m := by rw [← h, Nat.min_eq_right hle]
        subst hk
        exact List.mem_cons_of_mem _ (ih hr)

theorem removeKey_length {l : Ladder} {k : Nat} (h : k ∈ ladderKeys l) :
    (removeKey k l).length + 1 = l.length := by
  induction l with
  | nil => simp [ladderKeys] at h
  | cons e rest ih =>
    by_cases he : e.1 = k
    · simp [removeKey, he]
    · have hmem : k ∈ ladderKeys rest := by
        rcases (List.mem_cons.mp h) with h1 | h1
        · exact absurd h1.symm he
        · exact h1
      simp only [removeKey]
      rw [if_neg he]
      have := ih hmem
      simp only [List.length_cons]
      omega

theorem removeKey_orders {l : Ladder} {k : Nat} (h : k ∈ ladderKeys l) :
    ladderOrders (removeKey k l) + (queueAt k l).length = ladderOrders l := by
  induction l with
  | nil => simp [ladderKeys] at h
  | cons e rest ih =>
    by_cases he : e.1 = k
    · simp [removeKey, queueAt, he, ladderOrders]
      omega
    · have hmem : k ∈ ladderKeys rest := by
        rcases (List.mem_cons.mp h) with h1 | h1
        · exact absurd h1.symm he
        · exact h1
      simp only [removeKey, queueAt]
      rw [if_neg he, if_neg he]
      simp only [ladderOrders, List.map_cons, List.sum_cons]
      have := ih hmem
      simp only [ladderOrders] at this
      omega

theorem insertAt_length_le (k : Nat) (q : List Order) (l : Ladder) :
    (insertAt k q l).length ≤ l.length + 1 := by
  induction l with
  | nil => simp [insertAt]
  | cons e rest ih =>
    simp only [insertAt]
    split
    · simp
    · simpa using Nat.succ_le_succ ih

theorem insertAt_orders_le (k : Nat) (q : List Order) (l : Ladder) :
    ladderOrders (insertAt k q l) ≤ ladderOrders l + q.length := by
  induction l with
  | nil => simp [insertAt, ladderOrders]
  | cons e rest ih =>
    simp only [insertAt]
    split
    · simp [ladderOrders]
      omega
    · simp only [ladderOrders, List.map_cons, List.sum_cons] at *
      omega

theorem ladderKeys_removeKey_subset (k : Nat) (l : Ladder) :
    ladderKeys (removeKey k l) ⊆ ladderKeys l := by
  induction l with
  | nil => simp [removeKey]
  | cons e rest ih =>
    intro x hx
    simp only [removeKey] at hx
    by_cases he : e.1 = k
    · rw [if_pos he] at hx
      exact List.mem_cons_of_mem _ hx
    · rw [if_neg he] at hx
      simp only [ladderKeys, List.map_cons, List.mem_cons] at hx ⊢
      rcases hx with h1 | h1
      · exact Or.inl h1
      · exact Or.inr (ih h1)

theorem mem_ladderKeys_insertAt {x k : Nat} {q : List Order} {l : Ladder}
    (h : x ∈ ladderKeys (insertAt k q l)) : x = k ∨ x ∈ ladderKeys l := by
  induction l with
  | nil =>
    simp [insertAt, ladderKeys] at h
    simp [h]
  | cons e rest ih =>
    simp only [insertAt] at h
    split at h
    · simp only [ladderKeys, List.map_cons] at h
      rcases List.mem_cons.mp h with h1 | h1
      · simp [h1]
      · exact Or.inr (List.mem_cons_of_mem _ h1)
    · simp only [ladderKeys, List.map_cons] at h ⊢
      rcases List.mem_cons.mp h with h1 | h1
      · exact Or.inr (by simp [h1])
      · rcases ih h1 with h2 | h2
        · exact Or.inl h2
        · exact Or.inr (List.mem_cons_of_mem _ h2)

theorem mem_ordersOf {o : Order} {l : Ladder} :
    o ∈ ordersOf l ↔ ∃ e ∈ l, o ∈ e.2 := by
  constructor
  · intro h
    simp [ordersOf] at h
    obtain ⟨q, ⟨a, ha⟩, ho⟩ := h
    exact ⟨(a, q), ha, ho⟩
  · intro h
    obtain ⟨e, he, ho⟩ := h
    simp [ordersOf]
    exact ⟨e.2, ⟨e.1, he⟩, ho⟩

theorem mem_queueAt {o : Order} {k : Nat} {l : Ladder} (h : o ∈ queueAt k l) :
    o ∈ ordersOf l := by
  induction l with
  | nil => simp [queueAt] at h
  | cons e rest ih =>
    simp only [queueAt] at h
    rw [mem_ordersOf]
    split at h
    · exact ⟨e, List.mem_cons_self _ _, h⟩
    · obtain ⟨e', he', ho⟩ := mem_ordersOf.mp (ih h)
      exact ⟨e', List.mem_cons_of_mem _ he', ho⟩

theorem mem_ordersOf_removeKey {o : Order} {k : Nat} {l : Ladder}
    (h : o ∈ ordersOf (removeKey k l)) : o ∈ ordersOf l := by
  induction l with
  | nil => simpa [removeKey] using h
  | cons e rest ih =>
    simp only [removeKey] at h
    rw [mem_ordersOf] at h ⊢
    split at h
    · obtain ⟨e', he', ho⟩ := h
      exact ⟨e', List.mem_cons_of_mem _ he', ho⟩
    · obtain ⟨e', he', ho⟩ := h
      rcases List.mem_cons.mp he' with h1 | h1
      · rw [h1] at ho
        exact ⟨e, List.mem_cons_self _ _, ho⟩
      · obtain ⟨e'', he'', ho'⟩ := mem_ordersOf.mp (ih (mem_ordersOf.mpr ⟨e', h1, ho⟩))
        exact ⟨e'', List.mem_cons_of_mem _ he'', ho'⟩

theorem mem_ordersOf_insertAt {o : Order} {k : Nat} {q : List Order} {l : Ladder}
    (h : o ∈ ordersOf (insertAt k q l)) : o ∈ q ∨ o ∈ ordersOf l := by
  induction l with
  | nil =>
    rw [mem_ordersOf] at h
    obtain ⟨e, he, ho⟩ := h
    simp [insertAt] at he
    rw [he] at ho
    exact Or.inl ho
  | cons e rest ih =>
    simp only [insertAt] at h
    rw [mem_ordersOf] at h
    split at h
    · obtain ⟨e', he', ho⟩ := h
      rcases List.mem_cons.mp he' with h1 | h1
      · rw [h1] at ho
        exact Or.inl ho
      · exact Or.inr (mem_ordersOf.mpr ⟨e', List.mem_cons_of_mem _ h1, ho⟩)
    · obtain ⟨e', he', ho⟩ := h
      rcases List.mem_cons.mp he' with h1 | h1
      · rw [h1] at ho
        exact Or.inr (mem_ordersOf.mpr ⟨e, List.mem_cons_self _ _, ho⟩)
      · rcases ih (mem_ordersOf.mpr ⟨e', h1, ho⟩) with h2 | h2
        · exact Or.inl h2
        · obtain ⟨e'', he'', ho'⟩ := mem_ordersOf.mp h2
          exact Or.inr (mem_ordersOf.mpr ⟨e'', List.mem_cons_of_mem _ he'', ho'⟩)

/-! ### Lemmas about applyFill and fillStep -/

theorem applyFill_filled (o : Order) (q : Nat) :
    (applyFill o q).filled_quantity = o.filled_quantity + q := by
  simp only [applyFill]
  split <;> rfl

theorem applyFill_quantity (o : Order) (q : Nat) :
    (applyFill o q).quantity = o.quantity := by
  simp only [applyFill]
  split <;> rfl

theorem applyFill_id (o : Order) (q : Nat) : (applyFill o q).id = o.id := by
  simp only [applyFill]
  split <;> rfl

theorem is_fully_filled_iff (o : Order) :
    o.is_fully_filled = true ↔ o.quantity ≤ o.filled_quantity := by
  simp [Order.is_fully_filled]

theorem fillStep_completes (sym : String) (tick : Nat) (b a : Order) :
    (fillStep sym tick b a).2.1.is_fully_filled = true ∨
    (fillStep sym tick b a).2.2.is_fully_filled = true := by
  simp only [fillStep, is_fully_filled_iff, applyFill_filled, applyFill_quantity,
    Order.remaining_quantity]
  omega

/-! ### Lemmas about the inner matching loop -/

theorem fillLevelGo_length (sym : String) (tick : Nat) :
    ∀ n bids asks,
      (fillLevelGo sym tick n bids asks).2.1.length ≤ bids.length ∧
      (fillLevelGo sym tick n bids asks).2.2.length ≤ asks.length ∧
      (1 ≤ n → bids ≠ [] → asks ≠ [] →
        (fillLevelGo sym tick n bids asks).2.1.length +
          (fillLevelGo sym tick n bids asks).2.2.length + 1 ≤
          bids.length + asks.length) := by
  intro n
  induction n with
  | zero =>
    intro bids asks
    refine ⟨Nat.le_refl _, Nat.le_refl _, ?_⟩
    intro h
    omega
  | succ n ih =>
    intro bids asks
    match bids, asks with
    | [], asks =>
      refine ⟨by simp [fillLevelGo], by simp [fillLevelGo], ?_⟩
      intro _ hb _
      exact absurd rfl hb
    | b :: bs, [] =>
      refine ⟨by simp [fillLevelGo], by simp [fillLevelGo], ?_⟩
      intro _ _ ha
      exact absurd rfl ha
    | b :: bs, a :: aa =>
      have hpop := fillStep_completes sym tick b a
      simp only [fillLevelGo]
      have hb1 : (if (fillStep sym tick b a).2.1.is_fully_filled then bs
          else (fillStep sym tick b a).2.1 :: bs).length ≤ bs.length + 1 := by
        split <;> simp
      have ha1 : (if (fillStep sym tick b a).2.2.is_fully_filled then aa
          else (fillStep sym tick b a).2.2 :: aa).length ≤ aa.length + 1 := by
        split <;> simp
      have hsum : (if (fillStep sym tick b a).2.1.is_fully_filled then bs
          else (fillStep sym tick b a).2.1 :: bs).length +
          (if (fillStep sym tick b a).2.2.is_fully_filled then aa
          else (fillStep sym tick b a).2.2 :: aa).length ≤
          bs.length + aa.length + 1 := by
        rcases hpop with hp | hp <;> rw [hp] <;> simp <;> split <;> simp <;> omega
      obtain ⟨ih1, ih2, _⟩ := ih _ _
      refine ⟨?_, ?_, ?_⟩
      · exact Nat.le_trans ih1 (by simpa using hb1)
      · exact Nat.le_trans ih2 (by simpa using ha1)
      · intro _ _ _
        simp only [List.length_cons]
        omega

theorem fillLevelGo_price (sym : String) (tick : Nat) :
    ∀ n bids asks t, t ∈ (fillLevelGo sym tick n bids asks).1 → t.price = tick := by
  intro n
  induction n with
  | zero =>
    intro bids asks t ht
    simp [fillLevelGo] at ht
  | succ n ih =>
    intro bids asks t ht
    match bids, asks with
    | [], asks => simp [fillLevelGo] at ht
    | b :: bs, [] => simp [fillLevelGo] at ht
    | b :: bs, a :: aa =>
      simp only [fillLevelGo, List.mem_cons] at ht
      rcases ht with ht | ht
      · rw [ht]
        rfl
      · exact ih _ _ _ ht

theorem fillLevelGo_shape (sym : String) (tick : Nat) :
    ∀ n bids asks, ∃ k,
      (fillLevelGo sym tick n bids asks).2.1 = bids.drop k ∨
      ∃ z b', bids.drop k = z :: bids.drop (k + 1) ∧
        (fillLevelGo sym tick n bids asks).2.1 = b' :: bids.drop (k + 1) ∧
        b'.id = z.id := by
  intro n
  induction n with
  | zero =>
    intro bids asks
    exact ⟨0, Or.inl (by simp [fillLevelGo])⟩
  | succ n ih =>
    intro bids asks
    match bids, asks with
    | [], asks => exact ⟨0, Or.inl (by simp [fillLevelGo])⟩
    | b :: bs, [] => exact ⟨0, Or.inl (by simp [fillLevelGo])⟩
    | b :: bs, a :: aa =>
      simp only [fillLevelGo]
      by_cases hf : (fillStep sym tick b a).2.1.is_fully_filled
      · rw [if_pos hf]
        obtain ⟨k, hk⟩ := ih bs _
        refine ⟨k + 1, ?_⟩
        rcases hk with hk | ⟨z, b', h1, h2, h3⟩
        · exact Or.inl (by simpa [List.drop_succ_cons] using hk)
        · exact Or.inr ⟨z, b', by simpa [List.drop_succ_cons] using h1,
            by simpa [List.drop_succ_cons] using h2, h3⟩
      · rw [if_neg hf]
        obtain ⟨k, hk⟩ := ih ((fillStep sym tick b a).2.1 :: bs) _
        cases k with
        | zero =>
          rcases hk with hk | ⟨z, b', h1, h2, h3⟩
          · refine ⟨0, Or.inr ⟨b, (fillStep sym tick b a).2.1, by simp, ?_, ?_⟩⟩
            · simpa using hk
            · exact applyFill_id b _
          · refine ⟨0, Or.inr ⟨b, b', by simp, by simpa using h2, ?_⟩⟩
            simp at h1
            rw [h3, ← h1]
            exact applyFill_id b _
        | succ k =>
          rcases hk with hk | ⟨z, b', h1, h2, h3⟩
          · exact ⟨k + 1, Or.inl (by simpa [List.drop_succ_cons] using hk)⟩
          · exact ⟨k + 1, Or.inr ⟨z, b', by simpa [List.drop_succ_cons] using h1,
              by simpa [List.drop_succ_cons] using h2, h3⟩⟩

theorem fillLevelGo_shape_ask (sym : String) (tick : Nat) :
    ∀ n bids asks, ∃ k,
      (fillLevelGo sym tick n bids asks).2.2 = asks.drop k ∨
      ∃ z a', asks.drop k = z :: asks.drop (k + 1) ∧
        (fillLevelGo sym tick n bids asks).2.2 = a' :: asks.drop (k + 1) ∧
        a'.id = z.id := by
  intro n
  induction n with
  | zero =>
    intro bids asks
    exact ⟨0, Or.inl (by simp [fillLevelGo])⟩
  | succ n ih =>
    intro bids asks
    match bids, asks with
    | [], asks => exact ⟨0, Or.inl (by simp [fillLevelGo])⟩
    | b :: bs, [] => exact ⟨0, Or.inl (by simp [fillLevelGo])⟩
    | b :: bs, a :: aa =>
      simp only [fillLevelGo]
      by_cases hf : (fillStep sym tick b a).2.2.is_fully_filled
      · rw [if_pos hf]
        obtain ⟨k, hk⟩ := ih _ aa
        refine ⟨k + 1, ?_⟩
        rcases hk with hk | ⟨z, a', h1, h2, h3⟩
        · exact Or.inl (by simpa [List.drop_succ_cons] using hk)
        · exact Or.inr ⟨z, a', by simpa [List.drop_succ_cons] using h1,
            by simpa [List.drop_succ_cons] using h2, h3⟩
      · rw [if_neg hf]
        obtain ⟨k, hk⟩ := ih _ ((fillStep sym tick b a).2.2 :: aa)
        cases k with
        | zero =>
          rcases hk with hk | ⟨z, a', h1, h2, h3⟩
          · refine ⟨0, Or.inr ⟨a, (fillStep sym tick b a).2.2, by simp, ?_, ?_⟩⟩
            · simpa using hk
            · exact applyFill_id a _
          · refine ⟨0, Or.inr ⟨a, a', by simp, by simpa using h2, ?_⟩⟩
            simp at h1
            rw [h3, ← h1]
            exact applyFill_id a _
        | succ k =>
          rcases hk with hk | ⟨z, a', h1, h2, h3⟩
          · exact ⟨k + 1, Or.inl (by simpa [List.drop_succ_cons] using hk)⟩
          · exact ⟨k + 1, Or.inr ⟨z, a', by simpa [List.drop_succ_cons] using h1,
              by simpa [List.drop_succ_cons] using h2, h3⟩⟩

theorem fillLevelGo_bounded (sym : String) (tick : Nat) :
    ∀ n bids asks,
      (∀ o ∈ bids, o.filled_quantity ≤ o.quantity) →
      (∀ o ∈ asks, o.filled_quantity ≤ o.quantity) →
      (∀ o ∈ (fillLevelGo sym tick n bids asks).2.1,
        o.filled_quantity ≤ o.quantity) ∧
      (∀ o ∈ (fillLevelGo sym tick n bids asks).2.2,
        o.filled_quantity ≤ o.quantity) := by
  intro n
  induction n with
  | zero =>
    intro bids asks hb ha
    exact ⟨hb, ha⟩
  | succ n ih =>
    intro bids asks hb ha
    match bids, asks with
    | [], asks => exact ⟨by simp [fillLevelGo], by simpa [fillLevelGo] using ha⟩
    | b :: bs, [] => exact ⟨by simpa [fillLevelGo] using hb, by simp [fillLevelGo]⟩
    | b :: bs, a :: aa =>
      have hbb : b.filled_quantity ≤ b.quantity := hb b (List.mem_cons_self _ _)
      have haa : a.filled_quantity ≤ a.quantity := ha a (List.mem_cons_self _ _)
      have hb' : ((fillStep sym tick b a).2.1).filled_quantity ≤
          ((fillStep sym tick b a).2.1).quantity := by
        simp only [fillStep, applyFill_filled, applyFill_quantity,
          Order.remaining_quantity]
        omega
      have ha' : ((fillStep sym tick b a).2.2).filled_quantity ≤
          ((fillStep sym tick b a).2.2).quantity := by
        simp only [fillStep, applyFill_filled, applyFill_quantity,
          Order.remaining_quantity]
        omega
      simp only [fillLevelGo]
      apply ih
      · intro o ho
        split at ho
        · exact hb o (List.mem_cons_of_mem _ ho)
        · rcases List.mem_cons.mp ho with h1 | h1
          · rw [h1]
            exact hb'
          · exact hb o (List.mem_cons_of_mem _ h1)
      · intro o ho
        split at ho
        · exact ha o (List.mem_cons_of_mem _ ho)
        · rcases List.mem_cons.mp ho with h1 | h1
          · rw [h1]
            exact ha'
          · exact ha o (List.mem_cons_of_mem _ h1)

theorem fillLevel_nil_left (sym : String) (tick : Nat) (asks : List Order) :
    fillLevel sym tick [] asks = ([], [], asks) := by
  cases asks <;> rfl

theorem fillLevel_nil_right (sym : String) (tick : Nat) (bids : List Order) :
    fillLevel sym tick bids [] = ([], bids, []) := by
  cases bids <;> rfl

/-! ### Lemmas about the outer matching loop -/

/-- Book not crossed (at the price-tick level): any best bid is strictly
below any best ask. -/
def uncrossed (bids asks : Ladder) : Prop :=
  ∀ bp ap, maxKey? bids = some bp → minKey? asks = some ap → bp < ap

/-- Every price level present in a ladder holds a non-empty queue. -/
def noEmptyLevel (l : Ladder) : Prop := ∀ e ∈ l, e.2 ≠ []

theorem matchFill_eq (sym : String) (bp ap : Nat) (bids asks : Ladder) :
    matchFill sym bp ap bids asks =
      ((fillLevel sym ap (queueAt bp bids) (queueAt ap asks)).1,
       (if ((fillLevel sym ap (queueAt bp bids) (queueAt ap asks)).2.1).isEmpty
        then removeKey bp bids
        else insertAt bp (fillLevel sym ap (queueAt bp bids) (queueAt ap asks)).2.1
          (removeKey bp bids)),
       (if ((fillLevel sym ap (queueAt bp bids) (queueAt ap asks)).2.2).isEmpty
        then removeKey ap asks
        else insertAt ap (fillLevel sym ap (queueAt bp bids) (queueAt ap asks)).2.2
          (removeKey ap asks))) := rfl

theorem matchLoop_zero (sym : String) (bids asks : Ladder) :
    matchLoop sym 0 bids asks = ([], bids, asks) := rfl

theorem matchLoop_none_left {bids : Ladder} (sym : String) (fuel : Nat)
    (asks : Ladder) (h : maxKey? bids = none) :
    matchLoop sym (fuel + 1) bids asks = ([], bids, asks) := by
  simp [matchLoop, h]

theorem matchLoop_none_right {asks : Ladder} (sym : String) (fuel : Nat)
    (bids : Ladder) (h : minKey? asks = none) :
    matchLoop sym (fuel + 1) bids asks = ([], bids, asks) := by
  cases hmb : maxKey? bids <;> simp [matchLoop, hmb, h]

theorem matchLoop_nocross {bids asks : Ladder} {bp ap : Nat} (sym : String)
    (fuel : Nat) (hb : maxKey? bids = some bp) (ha : minKey? asks = some ap)
    (hc : ¬ ap ≤ bp) :
    matchLoop sym (fuel + 1) bids asks = ([], bids, asks) := by
  simp [matchLoop, hb, ha, hc]

theorem matchLoop_cross {bids asks : Ladder} {bp ap : Nat} (sym : String)
    (fuel : Nat) (hb : maxKey? bids = some bp) (ha : minKey? asks = some ap)
    (hc : ap ≤ bp) :
    matchLoop sym (fuel + 1) bids asks =
      ((matchFill sym bp ap bids asks).1 ++
        (matchLoop sym fuel (matchFill sym bp ap bids asks).2.1
          (matchFill sym bp ap bids asks).2.2).1,
       (matchLoop sym fuel (matchFill sym bp ap bids asks).2.1
          (matchFill sym bp ap bids asks).2.2).2.1,
       (matchLoop sym fuel (matchFill sym bp ap bids asks).2.1
          (matchFill sym bp ap bids asks).2.2).2.2) := by
  simp [matchLoop, hb, ha, hc]

theorem measure_reinsert_lt (bids asks bids1 asks1 : Ladder)
    (bidQ askQ rb ra : List Order) (bp ap : Nat)
    (hbl : bids1.length + 1 = bids.length)
    (hbo : ladderOrders bids1 + bidQ.length = ladderOrders bids)
    (hal : asks1.length + 1 = asks.length)
    (hao : ladderOrders asks1 + askQ.length = ladderOrders asks)
    (hrb : rb.length ≤ bidQ.length) (hra : ra.length ≤ askQ.length)
    (hstrict : bidQ ≠ [] → askQ ≠ [] →
      rb.length + ra.length + 1 ≤ bidQ.length + askQ.length)
    (hrb0 : bidQ = [] → rb = []) (hra0 : askQ = [] → ra = []) :
    bookMeasure (if rb.isEmpty then bids1 else insertAt bp rb bids1)
      (if ra.isEmpty then asks1 else insertAt ap ra asks1) <
      bookMeasure bids asks := by
  have hib1 := insertAt_length_le bp rb bids1
  have hib2 := insertAt_orders_le bp rb bids1
  have hia1 := insertAt_length_le ap ra asks1
  have hia2 := insertAt_orders_le ap ra asks1
  by_cases h1 : rb.isEmpty
  · rw [if_pos h1]
    by_cases h2 : ra.isEmpty
    · rw [if_pos h2]
      simp only [bookMeasure]
      omega
    · rw [if_neg h2]
      have hane : askQ ≠ [] := by
        intro h
        exact h2 (by simp [hra0 h])
      have : 1 ≤ askQ.length := List.length_pos.mpr hane
      simp only [bookMeasure]
      omega
  · rw [if_neg h1]
    have hbne : bidQ ≠ [] := by
      intro h
      exact h1 (by simp [hrb0 h])
    have hbq1 : 1 ≤ bidQ.length := List.length_pos.mpr hbne
    by_cases h2 : ra.isEmpty
    · rw [if_pos h2]
      simp only [bookMeasure]
      omega
    · rw [if_neg h2]
      have hane : askQ ≠ [] := by
        intro h
        exact h2 (by simp [hra0 h])
      have hstr := hstrict hbne hane
      simp only [bookMeasure]
      omega

theorem matchFill_measure (sym : String) {bids asks : Ladder} {bp ap : Nat}
    (hb : maxKey? bids = some bp) (ha : minKey? asks = some ap) :
    bookMeasure (matchFill sym bp ap bids asks).2.1
      (matchFill sym bp ap bids asks).2.2 < bookMeasure bids asks := by
  have hbk : bp ∈ ladderKeys bids := keyMax?_mem hb
  have hak : ap ∈ ladderKeys asks := keyMin?_mem ha
  have hlen := fillLevelGo_length sym ap
    ((queueAt bp bids).length + (queueAt ap asks).length)
    (queueAt bp bids) (queueAt ap asks)
  rw [matchFill_eq]
  apply measure_reinsert_lt bids asks (removeKey bp bids) (removeKey ap asks)
    (queueAt bp bids) (queueAt ap asks) _ _ bp ap
  · exact removeKey_length hbk
  · exact removeKey_orders hbk
  · exact removeKey_length hak
  · exact removeKey_orders hak
  · exact hlen.1
  · exact hlen.2.1
  · intro hbne hane
    have h1 : 1 ≤ (queueAt bp bids).length := List.length_pos.mpr hbne
    exact hlen.2.2 (by omega) hbne hane
  · intro h
    rw [show fillLevel sym ap (queueAt bp bids) (queueAt ap asks) =
      fillLevel sym ap [] (queueAt ap asks) by rw [h]]
    rw [fillLevel_nil_left]
  · intro h
    rw [show fillLevel sym ap (queueAt bp bids) (queueAt ap asks) =
      fillLevel sym ap (queueAt bp bids) [] by rw [h]]
    rw [fillLevel_nil_right]

theorem matchLoop_uncrossed (sym : String) :
    ∀ fuel bids asks, bookMeasure bids asks ≤ fuel →
      uncrossed (matchLoop sym fuel bids asks).2.1
        (matchLoop sym fuel bids asks).2.2 := by
  intro fuel
  induction fuel with
  | zero =>
    intro bids asks hm
    have hb : bids = [] := by
      have : bids.length = 0 := by
        simp only [bookMeasure] at hm
        omega
      exact List.length_eq_zero.mp this
    subst hb
    rw [matchLoop_zero]
    intro bp ap hbp hap
    simp [maxKey?, ladderKeys, keyMax?] at hbp
  | succ fuel ih =>
    intro bids asks hm
    cases hmb : maxKey? bids with
    | none =>
      rw [matchLoop_none_left sym fuel asks hmb]
      intro bp ap hbp hap
      rw [hmb] at hbp
      simp at hbp
    | some bp0 =>
      cases hma : minKey? asks with
      | none =>
        rw [matchLoop_none_right sym fuel bids hma]
        intro bp ap hbp hap
        rw [hma] at hap
        simp at hap
      | some ap0 =>
        by_cases hc : ap0 ≤ bp0
        · rw [matchLoop_cross sym fuel hmb hma hc]
          have hlt := matchFill_measure sym hmb hma
          exact ih _ _ (by omega)
        · rw [matchLoop_nocross sym fuel hmb hma hc]
          intro bp ap hbp hap
          rw [hmb] at hbp
          rw [hma] at hap
          simp at hbp hap
          omega

theorem matchLoop_stable (sym : String) :
    ∀ fuel bids asks, bookMeasure bids asks ≤ fuel →
      matchLoop sym (fuel + 1) bids asks = matchLoop sym fuel bids asks := by
  intro fuel
  induction fuel with
  | zero =>
    intro bids asks hm
    have hb : bids = [] := by
      have : bids.length = 0 := by
        simp only [bookMeasure] at hm
        omega
      exact List.length_eq_zero.mp this
    subst hb
    rw [matchLoop_zero, matchLoop_none_left sym 0 asks (by rfl)]
  | succ fuel ih =>
    intro bids asks hm
    cases hmb : maxKey? bids with
    | none =>
      rw [matchLoop_none_left sym (fuel + 1) asks hmb,
        matchLoop_none_left sym fuel asks hmb]
    | some bp0 =>
      cases hma : minKey? asks with
      | none =>
        rw [matchLoop_none_right sym (fuel + 1) bids hma,
          matchLoop_none_right sym fuel bids hma]
      | some ap0 =>
        by_cases hc : ap0 ≤ bp0
        · rw [matchLoop_cross sym (fuel + 1) hmb hma hc,
            matchLoop_cross sym fuel hmb hma hc]
          have hlt := matchFill_measure sym hmb hma
          rw [ih _ _ (by omega)]
        · rw [matchLoop_nocross sym (fuel + 1) hmb hma hc,
            matchLoop_nocross sym fuel hmb hma hc]

theorem matchLoop_stable_ge (sym : String) (bids asks : Ladder) :
    ∀ fuel, bookMeasure bids asks ≤ fuel →
      matchLoop sym fuel bids asks =
        matchLoop sym (bookMeasure bids asks) bids asks := by
  intro fuel hle
  induction fuel, hle using Nat.le_induction with
  | base => rfl
  | succ n hn ihn => rw [matchLoop_stable sym n bids asks hn, ihn]

theorem matchLoop_price (sym : String) :
    ∀ fuel bids asks t, t ∈ (matchLoop sym fuel bids asks).1 →
      ∃ k, k ∈ ladderKeys asks ∧ t.price = k := by
  intro fuel
  induction fuel with
  | zero =>
    intro bids asks t ht
    rw [matchLoop_zero] at ht
    simp at ht
  | succ fuel ih =>
    intro bids asks t ht
    cases hmb : maxKey? bids with
    | none =>
      rw [matchLoop_none_left sym fuel asks hmb] at ht
      simp at ht
    | some bp0 =>
      cases hma : minKey? asks with
      | none =>
        rw [matchLoop_none_right sym fuel bids hma] at ht
        simp at ht
      | some ap0 =>
        by_cases hc : ap0 ≤ bp0
        · rw [matchLoop_cross sym fuel hmb hma hc] at ht
          rcases List.mem_append.mp ht with h1 | h1
          · rw [matchFill_eq] at h1
            refine ⟨ap0, keyMin?_mem hma, ?_⟩
            exact fillLevelGo_price sym ap0 _ _ _ _ h1
          · obtain ⟨k, hk, hp⟩ := ih _ _ _ h1
            refine ⟨k, ?_, hp⟩
            rw [matchFill_eq] at hk
            dsimp only at hk
            split at hk
            · exact ladderKeys_removeKey_subset ap0 asks hk
            · rcases mem_ladderKeys_insertAt hk with h2 | h2
              · rw [h2]
                exact keyMin?_mem hma
              · exact ladderKeys_removeKey_subset ap0 asks h2
        · rw [matchLoop_nocross sym fuel hmb hma hc] at ht
          simp at ht

theorem matchLoop_bounded (sym : String) :
    ∀ fuel bids asks,
      (∀ o ∈ ordersOf bids, o.filled_quantity ≤ o.quantity) →
      (∀ o ∈ ordersOf asks, o.filled_quantity ≤ o.quantity) →
      (∀ o ∈ ordersOf (matchLoop sym fuel bids asks).2.1,
        o.filled_quantity ≤ o.quantity) ∧
      (∀ o ∈ ordersOf (matchLoop sym fuel bids asks).2.2,
        o.filled_quantity ≤ o.quantity) := by
  intro fuel
  induction fuel with
  | zero =>
    intro bids asks hb ha
    rw [matchLoop_zero]
    exact ⟨hb, ha⟩
  | succ fuel ih =>
    intro bids asks hb ha
    cases hmb : maxKey? bids with
    | none =>
      rw [matchLoop_none_left sym fuel asks hmb]
      exact ⟨hb, ha⟩
    | some bp0 =>
      cases hma : minKey? asks with
      | none =>
        rw [matchLoop_none_right sym fuel bids hma]
        exact ⟨hb, ha⟩
      | some ap0 =>
        by_cases hc : ap0 ≤ bp0
        · rw [matchLoop_cross sym fuel hmb hma hc]
          have hq := fillLevelGo_bounded sym ap0
            ((queueAt bp0 bids).length + (queueAt ap0 asks).length)
            (queueAt bp0 bids) (queueAt ap0 asks)
            (fun o ho => hb o (mem_queueAt ho))
            (fun o ho => ha o (mem_queueAt ho))
          apply ih
          · intro o ho
            rw [matchFill_eq] at ho
            dsimp only at ho
            split at ho
            · exact hb o (mem_ordersOf_removeKey ho)
            · rcases mem_ordersOf_insertAt ho with h1 | h1
              · exact hq.1 o h1
              · exact hb o (mem_ordersOf_removeKey h1)
          · intro o ho
            rw [matchFill_eq] at ho
            dsimp only at ho
            split at ho
            · exact ha o (mem_ordersOf_removeKey ho)
            · rcases mem_ordersOf_insertAt ho with h1 | h1
              · exact hq.2 o h1
              · exact ha o (mem_ordersOf_removeKey h1)
        · rw [matchLoop_nocross sym fuel hmb hma hc]
          exact ⟨hb, ha⟩

/-! ### Lemmas about cancel and add -/

theorem cancelLadder_keys (oid : Nat) :
    ∀ l : Ladder, ladderKeys (cancelLadder oid l).2 = ladderKeys l := by
  intro l
  induction l with
  | nil => rfl
  | cons e rest ih =>
    cases e with
    | mk k q =>
      cases hq : (cancelQueue oid q).1 with
      | some o => simp [cancelLadder, hq, ladderKeys]
      | none =>
        simp only [cancelLadder, hq, ladderKeys, List.map_cons]
        simp only [ladderKeys] at ih
        rw [ih]

theorem queueAt_pushAt (k : Nat) (o : Order) :
    ∀ l : Ladder, queueAt k (pushAt k o l) = queueAt k l ++ [o] := by
  intro l
  induction l with
  | nil => simp [pushAt, queueAt]
  | cons e rest ih =>
    cases e with
    | mk k' q =>
      by_cases he : k' = k
      · simp [pushAt, queueAt, he]
      · simp only [pushAt, queueAt, if_neg he]
        exact ih

/-! ### The claims -/

/-- C9.  For every metrics snapshot taken with at least one latency sample,
the reported percentiles are ordered p50 ≤ p95 ≤ p99, where the snapshot
sorts the samples ascending and reads p50 = samples[n/2],
p95 = samples[(95n)/100], p99 = samples[(99n)/100] with integer indexing
(ExecutionEngine::get_metrics, src/engine/mod.rs lines 226-242). -/
theorem C9_percentile_order (samples : List Nat) (hne : samples ≠ [])
    (avg p50 p95 p99 : Nat)
    (h : latencySnapshot samples = some (avg, p50, p95, p99)) :
    p50 ≤ p95 ∧ p95 ≤ p99 := by
  unfold latencySnapshot at h
  rw [if_neg (by simpa using hne)] at h
  simp only [Option.some.injEq, Prod.mk.injEq] at h
  obtain ⟨_, h50, h95, h99⟩ := h
  set s := List.insertionSort (· ≤ ·) samples with hs
  have hsort : List.Sorted (· ≤ ·) s := List.sorted_insertionSort _ _
  have hlen : s.length = samples.length :=
    (List.perm_insertionSort (· ≤ ·) samples).length_eq
  have hpos : 1 ≤ s.length := by
    rw [hlen]
    exact List.length_pos.mpr hne
  have hi1 : s.length / 2 < s.length := by omega
  have hi2 : s.length * 95 / 100 < s.length := by omega
  have hi3 : s.length * 99 / 100 < s.length := by omega
  have hij1 : s.length / 2 ≤ s.length * 95 / 100 := by omega
  have hij2 : s.length * 95 / 100 ≤ s.length * 99 / 100 := by omega
  constructor
  · rw [← h50, ← h95, List.getD_eq_get _ _ hi1, List.getD_eq_get _ _ hi2]
    exact hsort.rel_get_of_le (Fin.mk_le_mk.mpr hij1)
  · rw [← h95, ← h99, List.getD_eq_get _ _ hi2, List.getD_eq_get _ _ hi3]
    exact hsort.rel_get_of_le (Fin.mk_le_mk.mpr hij2)

/-- Witness for C9 at the sample buffer [3, 1, 2]: sorted [1, 2, 3], n = 3,
avg = 2, p50 = s[1] = 2, p95 = s[2] = 3, p99 = s[2] = 3. -/
theorem C9_percentile_order_witness :
    latencySnapshot [3, 1, 2] = some (2, 2, 3, 3) ∧
      (2 : Nat) ≤ 3 ∧ (3 : Nat) ≤ 3 :=
  ⟨by rfl, C9_percentile_order [3, 1, 2] (by decide) 2 2 3 3 (by rfl)⟩

/-- C10.  Order::remaining_quantity returns quantity minus filled_quantity
saturated at zero: it never underflows (the result never exceeds quantity,
and equals the exact difference whenever filled_quantity ≤ quantity), and
it returns 0 whenever filled_quantity ≥ quantity
(src/types/mod.rs lines 96-98). -/
theorem C10_remaining_saturating (o : Order) :
    (o.quantity ≤ o.filled_quantity → o.remaining_quantity = 0) ∧
    (o.filled_quantity ≤ o.quantity →
      o.remaining_quantity + o.filled_quantity = o.quantity) ∧
    o.remaining_quantity ≤ o.quantity := by
  unfold Order.remaining_quantity
  omega

/-- Witness for C10: an overfilled order (filled 9 of 5) has remaining 0,
and a fresh order has remaining bounded by its quantity. -/
theorem C10_remaining_saturating_witness :
    ({ Order.new_limit 1 "S" Side.Buy 5 100 "c" with
        filled_quantity := 9 } : Order).remaining_quantity = 0 ∧
      (Order.new_limit 1 "S" Side.Buy 5 100 "c").remaining_quantity ≤ 5 :=
  ⟨(C10_remaining_saturating _).1 (by decide),
   (C10_remaining_saturating _).2.2⟩

/-! ### Concrete orders and books used by witnesses and counterexamples -/

/-- A resting limit buy: 10 at tick 5000000 (price 50000.00). -/
def oBuy : Order := Order.new_limit 1 "S" Side.Buy 10 5000000 "A"

/-- An aggressing limit sell: 4 at tick 4990000 (price 49900.00). -/
def oSell : Order := Order.new_limit 2 "S" Side.Sell 4 4990000 "B"

/-- The crossed book of spec scenario 2: Buy 10 @ 50000 then Sell 4 @ 49900. -/
def bookBS : OrderBook := ((OrderBook.new "S").add_order oBuy).add_order oSell

/-- A resting limit buy below the ask: 10 at tick 4990000. -/
def oBuyU : Order := Order.new_limit 3 "S" Side.Buy 10 4990000 "A"

/-- A resting limit sell above the bid: 10 at tick 5000000. -/
def oSellU : Order := Order.new_limit 4 "S" Side.Sell 10 5000000 "B"

/-- An uncrossed book: bid 49900.00 against ask 50000.00. -/
def bookU : OrderBook := ((OrderBook.new "S").add_order oBuyU).add_order oSellU

/-- C5.  After every completed command the book is not crossed at the
price-tick level: whenever match_orders returns, any best bid tick is
strictly below any best ask tick (or a side has no levels); and
cancel_order never changes the set of price levels, so a completed cancel
preserves the property (process_order always ends with match_orders,
src/matching/mod.rs lines 46-107). -/
theorem C5_no_crossed_book :
    (∀ book : OrderBook,
      uncrossed (book.match_orders).2.bids (book.match_orders).2.asks) ∧
    (∀ (book : OrderBook) (oid : Nat), uncrossed book.bids book.asks →
      uncrossed (book.cancel_order oid).2.bids
        (book.cancel_order oid).2.asks) := by
  constructor
  · intro book
    exact matchLoop_uncrossed book.symbol
      (bookMeasure book.bids book.asks) book.bids book.asks (Nat.le_refl _)
  · intro book oid h
    simp only [OrderBook.cancel_order]
    cases hb : (cancelLadder oid book.bids).1 with
    | some o =>
      simp only [hb]
      intro bp ap h1 h2
      refine h bp ap ?_ h2
      have hk : maxKey? (cancelLadder oid book.bids).2 = maxKey? book.bids := by
        unfold maxKey?
        rw [cancelLadder_keys]
      rw [← hk]
      exact h1
    | none =>
      simp only [hb]
      cases ha : (cancelLadder oid book.asks).1 with
      | some o =>
        simp only [ha]
        intro bp ap h1 h2
        refine h bp ap h1 ?_
        have hk : minKey? (cancelLadder oid book.asks).2 = minKey? book.asks := by
          unfold minKey?
          rw [cancelLadder_keys]
        rw [← hk]
        exact h2
      | none =>
        simp only [ha]
        exact h

/-- Witness for C5: the crossed book of scenario 2 is uncrossed after
matching, and cancelling inside an uncrossed book keeps it uncrossed. -/
theorem C5_no_crossed_book_witness :
    uncrossed (bookBS.match_orders).2.bids (bookBS.match_orders).2.asks ∧
      uncrossed (bookU.cancel_order 3).2.bids (bookU.cancel_order 3).2.asks := by
  refine ⟨C5_no_crossed_book.1 bookBS, C5_no_crossed_book.2 bookU 3 ?_⟩
  intro bp ap h1 h2
  have e1 : maxKey? bookU.bids = some 4990000 := rfl
  have e2 : minKey? bookU.asks = some 5000000 := rfl
  rw [e1] at h1
  rw [e2] at h2
  cases h1
  cases h2
  decide

/-- C8.  match_orders terminates on every book: every iteration of the
inner loop drives the remaining quantity of at least one side to zero
(that side is popped), every crossed iteration of the outer loop strictly
shrinks the finite measure of total orders plus total price levels, and
therefore running the loop with fuel bookMeasure is already the fixed
point: any larger fuel computes the same result
(src/matching/mod.rs lines 43-110). -/
theorem C8_match_terminates :
    (∀ (sym : String) (tick : Nat) (b a : Order),
      (fillStep sym tick b a).2.1.remaining_quantity = 0 ∨
      (fillStep sym tick b a).2.2.remaining_quantity = 0) ∧
    (∀ (sym : String) (bids asks : Ladder) (fuel : Nat),
      bookMeasure bids asks ≤ fuel →
      matchLoop sym fuel bids asks =
        matchLoop sym (bookMeasure bids asks) bids asks) := by
  constructor
  · intro sym tick b a
    rcases fillStep_completes sym tick b a with h | h
    · left
      rw [is_fully_filled_iff] at h
      unfold Order.remaining_quantity
      omega
    · right
      rw [is_fully_filled_iff] at h
      unfold Order.remaining_quantity
      omega
  · intro sym bids asks fuel h
    exact matchLoop_stable_ge sym bids asks fuel h

/-- Witness for C8: on the scenario-2 book (measure 4) any fuel of at
least the measure gives the same matching result. -/
theorem C8_match_terminates_witness :
    bookMeasure bookBS.bids bookBS.asks ≤ 10 ∧
      matchLoop "S" 10 bookBS.bids bookBS.asks =
        matchLoop "S" (bookMeasure bookBS.bids bookBS.asks)
          bookBS.bids bookBS.asks :=
  ⟨by decide, C8_match_terminates.2 "S" bookBS.bids bookBS.asks 10 (by decide)⟩

/-- C7.  For every trade produced by a matching step with bid participant b
and ask participant a: the trade quantity is min(b.remaining, a.remaining)
at that step, each participant filled_quantity grows by exactly the trade
quantity (their sum by twice it), a fill never pushes filled_quantity past
quantity when filled ≤ quantity held before the step, and match_orders
preserves filled ≤ quantity (remaining never underflows) for every order
of the book (src/matching/mod.rs lines 60-90, src/types/mod.rs 96-102). -/
theorem C7_conservation :
    (∀ (sym : String) (tick : Nat) (b a : Order),
      (fillStep sym tick b a).1.quantity =
        min b.remaining_quantity a.remaining_quantity ∧
      (fillStep sym tick b a).2.1.filled_quantity =
        b.filled_quantity + (fillStep sym tick b a).1.quantity ∧
      (fillStep sym tick b a).2.2.filled_quantity =
        a.filled_quantity + (fillStep sym tick b a).1.quantity ∧
      (fillStep sym tick b a).2.1.filled_quantity +
          (fillStep sym tick b a).2.2.filled_quantity =
        b.filled_quantity + a.filled_quantity +
          2 * (fillStep sym tick b a).1.quantity ∧
      (b.filled_quantity ≤ b.quantity →
        (fillStep sym tick b a).2.1.filled_quantity ≤
          (fillStep sym tick b a).2.1.quantity) ∧
      (a.filled_quantity ≤ a.quantity →
        (fillStep sym tick b a).2.2.filled_quantity ≤
          (fillStep sym tick b a).2.2.quantity)) ∧
    (∀ book : OrderBook,
      (∀ o ∈ ordersOf book.bids, o.filled_quantity ≤ o.quantity) →
      (∀ o ∈ ordersOf book.asks, o.filled_quantity ≤ o.quantity) →
      (∀ o ∈ ordersOf (book.match_orders).2.bids,
        o.filled_quantity ≤ o.quantity) ∧
      (∀ o ∈ ordersOf (book.match_orders).2.asks,
        o.filled_quantity ≤ o.quantity)) := by
  constructor
  · intro sym tick b a
    have hq : (fillStep sym tick b a).1.quantity =
        min b.remaining_quantity a.remaining_quantity := rfl
    have hsb : (fillStep sym tick b a).2.1 =
        applyFill b (min b.remaining_quantity a.remaining_quantity) := rfl
    have hsa : (fillStep sym tick b a).2.2 =
        applyFill a (min b.remaining_quantity a.remaining_quantity) := rfl
    have hbf := applyFill_filled b (min b.remaining_quantity a.remaining_quantity)
    have haf := applyFill_filled a (min b.remaining_quantity a.remaining_quantity)
    have hbq := applyFill_quantity b (min b.remaining_quantity a.remaining_quantity)
    have haq := applyFill_quantity a (min b.remaining_quantity a.remaining_quantity)
    rw [hq, hsb, hsa]
    refine ⟨rfl, hbf, haf, by rw [hbf, haf]; omega, ?_, ?_⟩
    · intro h
      rw [hbf, hbq]
      unfold Order.remaining_quantity
      omega
    · intro h
      rw [haf, haq]
      unfold Order.remaining_quantity
      omega
  · intro book hb ha
    exact matchLoop_bounded book.symbol
      (bookMeasure book.bids book.asks) book.bids book.asks hb ha

/-- Witness for C7: at the first matching step of scenario 2 the trade
quantity is min(10, 4) and the bid participant stays within its quantity;
the matched book also keeps every order within bounds. -/
theorem C7_conservation_witness :
    (fillStep "S" 4990000 oBuy oSell).1.quantity =
      min oBuy.remaining_quantity oSell.remaining_quantity ∧
      (fillStep "S" 4990000 oBuy oSell).2.1.filled_quantity ≤
        (fillStep "S" 4990000 oBuy oSell).2.1.quantity ∧
      ∀ o ∈ ordersOf (bookBS.match_orders).2.bids,
        o.filled_quantity ≤ o.quantity :=
  ⟨(C7_conservation.1 "S" 4990000 oBuy oSell).1,
   (C7_conservation.1 "S" 4990000 oBuy oSell).2.2.2.2.1 (by decide),
   (C7_conservation.2 bookBS (by decide) (by decide)).1⟩

/-- Earlier order in a level queue used by the C6 witness. -/
def xF : Order := Order.new_limit 21 "S" Side.Buy 5 5000000 "A"

/-- Later order at the same price used by the C6 witness. -/
def yF : Order := Order.new_limit 22 "S" Side.Buy 5 5000000 "B"

/-- Small opposing ask that only partially fills xF (C6 witness). -/
def aS : Order := Order.new_limit 24 "S" Side.Sell 3 5000000 "C"

/-- Earlier ask in a level queue used by the C6 witness. -/
def xA : Order := Order.new_limit 25 "S" Side.Sell 5 5000000 "D"

/-- Later ask at the same price used by the C6 witness. -/
def yA : Order := Order.new_limit 26 "S" Side.Sell 5 5000000 "E"

/-- Small opposing buy that only partially fills xA (C6 witness). -/
def bS : Order := Order.new_limit 27 "S" Side.Buy 3 5000000 "F"

/-- C6.  FIFO within a price level, on both sides of the book: add_order
appends the new order at the back of its level queue (bid and ask parts),
and the inner matching loop takes fills from the front only.  In the loop
an order leaves its queue exactly by becoming fully filled, so the front
parts state the loop property as: for two orders x (earlier) and y (later)
resting in the same level queue with pairwise-distinct ids, as long as an
order with the id of x is still in the queue after the level match — x has
not yet been fully filled and popped — the order y is still in the queue
completely untouched, with its original filled_quantity.  Contrapositive:
y receives its first fill (is mutated or consumed) only after x has been
fully filled and removed; this covers both a later order that survives
partially filled and one that is fully consumed
(src/matching/mod.rs lines 26-39 and 57-95). -/
theorem C6_fifo_within_level :
    (∀ (book : OrderBook) (o : Order), o.side = Side.Buy →
      queueAt o.priceLevel (book.add_order o).bids =
        queueAt o.priceLevel book.bids ++ [o]) ∧
    (∀ (book : OrderBook) (o : Order), o.side = Side.Sell →
      queueAt o.priceLevel (book.add_order o).asks =
        queueAt o.priceLevel book.asks ++ [o]) ∧
    (∀ (sym : String) (tick : Nat) (x y : Order) (rest asks : List Order),
      y ∈ rest →
      ((x :: rest).map Order.id).Nodup →
      (∃ x' ∈ (fillLevel sym tick (x :: rest) asks).2.1, x'.id = x.id) →
      y ∈ (fillLevel sym tick (x :: rest) asks).2.1) ∧
    (∀ (sym : String) (tick : Nat) (x y : Order) (rest bids : List Order),
      y ∈ rest →
      ((x :: rest).map Order.id).Nodup →
      (∃ x' ∈ (fillLevel sym tick bids (x :: rest)).2.2, x'.id = x.id) →
      y ∈ (fillLevel sym tick bids (x :: rest)).2.2) := by
  refine ⟨?_, ?_, ?_, ?_⟩
  · intro book o hside
    unfold OrderBook.add_order
    rw [hside]
    exact queueAt_pushAt o.priceLevel o book.bids
  · intro book o hside
    unfold OrderBook.add_order
    rw [hside]
    exact queueAt_pushAt o.priceLevel o book.asks
  · intro sym tick x y rest asks hy hnodup hex
    unfold fillLevel at hex ⊢
    obtain ⟨k, hk⟩ := fillLevelGo_shape sym tick
      ((x :: rest).length + asks.length) (x :: rest) asks
    rw [List.map_cons] at hnodup
    obtain ⟨hxni, _⟩ := List.nodup_cons.mp hnodup
    have hxnotin : ∀ z ∈ rest, z.id ≠ x.id := by
      intro z hz he
      exact hxni (he ▸ List.mem_map_of_mem Order.id hz)
    obtain ⟨x', hx', hxid⟩ := hex
    rcases hk with hk | ⟨z, b', h1, h2, h3⟩
    · -- the queue only lost a prefix; the id of x survives only if k = 0
      rw [hk] at hx' ⊢
      cases k with
      | zero => simpa using List.mem_cons_of_mem x hy
      | succ k =>
        rw [List.drop_succ_cons] at hx'
        exact absurd hxid (hxnotin x' (List.mem_of_mem_drop hx'))
    · -- the front was refilled in place; x survives only as that front
      rw [h2] at hx' ⊢
      rcases List.mem_cons.mp hx' with h4 | h4
      · have hzid : z.id = x.id := by rw [← h3, ← h4]; exact hxid
        have hzmem : z ∈ (x :: rest).drop k := by
          rw [h1]
          exact List.mem_cons_self _ _
        cases k with
        | zero =>
          rw [List.drop_succ_cons, List.drop_zero]
          exact List.mem_cons_of_mem _ hy
        | succ k =>
          rw [List.drop_succ_cons] at hzmem
          exact absurd hzid (hxnotin z (List.mem_of_mem_drop hzmem))
      · rw [List.drop_succ_cons] at h4
        exact absurd hxid (hxnotin x' (List.mem_of_mem_drop h4))
  · intro sym tick x y rest bids hy hnodup hex
    unfold fillLevel at hex ⊢
    obtain ⟨k, hk⟩ := fillLevelGo_shape_ask sym tick
      (bids.length + (x :: rest).length) bids (x :: rest)
    rw [List.map_cons] at hnodup
    obtain ⟨hxni, _⟩ := List.nodup_cons.mp hnodup
    have hxnotin : ∀ z ∈ rest, z.id ≠ x.id := by
      intro z hz he
      exact hxni (he ▸ List.mem_map_of_mem Order.id hz)
    obtain ⟨x', hx', hxid⟩ := hex
    rcases hk with hk | ⟨z, a', h1, h2, h3⟩
    · rw [hk] at hx' ⊢
      cases k with
      | zero => simpa using List.mem_cons_of_mem x hy
      | succ k =>
        rw [List.drop_succ_cons] at hx'
        exact absurd hxid (hxnotin x' (List.mem_of_mem_drop hx'))
    · rw [h2] at hx' ⊢
      rcases List.mem_cons.mp hx' with h4 | h4
      · have hzid : z.id = x.id := by rw [← h3, ← h4]; exact hxid
        have hzmem : z ∈ (x :: rest).drop k := by
          rw [h1]
          exact List.mem_cons_self _ _
        cases k with
        | zero =>
          rw [List.drop_succ_cons, List.drop_zero]
          exact List.mem_cons_of_mem _ hy
        | succ k =>
          rw [List.drop_succ_cons] at hzmem
          exact absurd hzid (hxnotin z (List.mem_of_mem_drop hzmem))
      · rw [List.drop_succ_cons] at h4
        exact absurd hxid (hxnotin x' (List.mem_of_mem_drop h4))

/-- Witness for C6: adding appends at the back; in the bid level [xF, yF]
matched against the small ask aS the earlier order xF survives partially
filled (3 of 5), so the later order yF is still resting untouched; and
symmetrically in the ask level [xA, yA] against the small buy bS. -/
theorem C6_fifo_within_level_witness :
    queueAt oBuy.priceLevel ((OrderBook.new "S").add_order oBuy).bids =
      queueAt oBuy.priceLevel (OrderBook.new "S").bids ++ [oBuy] ∧
      yF ∈ (fillLevel "S" 5000000 [xF, yF] [aS]).2.1 ∧
      yA ∈ (fillLevel "S" 5000000 [bS] [xA, yA]).2.2 :=
  ⟨C6_fifo_within_level.1 (OrderBook.new "S") oBuy (by rfl),
   C6_fifo_within_level.2.2.1 "S" 5000000 xF yF [yF] [aS]
     (by decide) (by decide) (by decide),
   C6_fifo_within_level.2.2.2 "S" 5000000 xA yA [yA] [bS]
     (by decide) (by decide) (by decide)⟩

/-- A market buy order used for the C2 failing input. -/
def mOrder : Order := Order.new_market 9 "S" Side.Buy 5 "c"

/-- A StopLoss order with positive quantity used for the C4 input. -/
def stopOrder : Order :=
  { Order.new_limit 8 "S" Side.Buy 3 4990000 "c" with
      order_type := OrderType.StopLoss }

/-- A one-order book used for the C3 failing input. -/
def cBook : OrderBook := (OrderBook.new "S").add_order oBuy

/-- C1 counterexample.  Spec scenario 2 (Buy 10 @ tick 5000000 resting,
then Sell 4 @ tick 4990000 as the aggressor): the emitted trade is priced
at the ask tick 4990000 — the aggressing sell price — not at the resting
bid tick 5000000 as the resting-side price rule demands. -/
theorem C1_counterexample :
    oSell.side = Side.Sell ∧ oBuy.priceLevel = 5000000 ∧
      (bookBS.match_orders).1 = [Trade.new oBuy.id oSell.id "S" 4 4990000] ∧
      (4990000 : Nat) ≠ 5000000 := by decide

/-- C1 amended.  Every trade emitted by match_orders is priced on the ask
side regardless of aggressor: inside one level match every trade carries
the ask level tick, and globally every trade price is the tick of one of
the ask levels of the book — the bid side never sets a trade price
(src/matching/mod.rs line 61). -/
theorem C1_trade_price_ask_side :
    (∀ (sym : String) (tick : Nat) (bids asks : List Order),
      ∀ t ∈ (fillLevel sym tick bids asks).1, t.price = tick) ∧
    (∀ book : OrderBook, ∀ t ∈ (book.match_orders).1,
      ∃ k, k ∈ ladderKeys book.asks ∧ t.price = k) := by
  constructor
  · intro sym tick bids asks t ht
    unfold fillLevel at ht
    exact fillLevelGo_price sym tick _ _ _ t ht
  · intro book t ht
    exact matchLoop_price book.symbol (bookMeasure book.bids book.asks)
      book.bids book.asks t ht

/-- Witness for C1 amended, on the scenario-2 book: the produced trade is
priced 4990000, the tick of an ask level. -/
theorem C1_trade_price_ask_side_witness :
    (Trade.new 1 2 "S" 4 4990000).price = 4990000 ∧
      ∃ k, k ∈ ladderKeys bookBS.asks ∧
        (Trade.new 1 2 "S" 4 4990000).price = k :=
  ⟨C1_trade_price_ask_side.1 "S" 4990000 [oBuy] [oSell]
      (Trade.new 1 2 "S" 4 4990000) (by decide),
   C1_trade_price_ask_side.2 bookBS (Trade.new 1 2 "S" 4 4990000) (by decide)⟩

/-- C2 failing input.  process_order routes the market buy mOrder (no
price) through add_order, which keys it at tick 0: on an empty engine the
order is left resting in the bids ladder with status Pending — it was
rested, its id is present in the book, and its state is not terminal. -/
theorem C2_market_order_rests :
    mOrder.order_type = OrderType.Market ∧
      queueAt 0 (findBook "S"
        (processOrder EngineState.init mOrder).1.books).bids = [mOrder] ∧
      (∃ o ∈ ordersOf (findBook "S"
          (processOrder EngineState.init mOrder).1.books).bids,
        o.id = mOrder.id ∧ o.status = OrderStatus.Pending) ∧
      (processOrder EngineState.init mOrder).1.metrics.rejected_orders = 0 := by
  decide

/-- C3 failing input.  cancel_order removes the only order of the level at
tick 5000000 but keeps the emptied level: an empty price level remains in
the bids ladder, and best_bid still reports tick 5000000 although the book
holds no orders at all (depth 0). -/
theorem C3_cancel_leaves_empty_level :
    (cBook.cancel_order 1).2.bids = [(5000000, [])] ∧
      ¬ noEmptyLevel (cBook.cancel_order 1).2.bids ∧
      (cBook.cancel_order 1).2.best_bid = some 5000000 ∧
      (cBook.cancel_order 1).2.depth = 0 := by
  refine ⟨by decide, ?_, by decide, by decide⟩
  intro h
  exact h (5000000, []) (by decide) rfl

/-- C4 counterexample.  The dispatcher never checks the order type against
the Market/Limit whitelist: the StopLoss order stopOrder (quantity 3,
price tick 4990000) passes validation, rejected_orders stays 0, and the
order is added to the bids ladder of its book. -/
theorem C4_counterexample :
    stopOrder.order_type = OrderType.StopLoss ∧
      (processOrder EngineState.init stopOrder).1.metrics.rejected_orders = 0 ∧
      queueAt 4990000 (findBook "S"
        (processOrder EngineState.init stopOrder).1.books).bids = [stopOrder] := by
  decide

/-- C4 amended.  A NewOrder whose order_type is StopLoss or StopLimit is
not rejected at intake: with positive quantity it passes validation
(the only checks are quantity > 0 and Limit-implies-price), total_orders
is incremented, rejected_orders is unchanged, and the order is added to
its book and matched exactly like a priced order
(src/engine/mod.rs lines 129-153). -/
theorem C4_stop_orders_not_rejected (st : EngineState) (o : Order)
    (htype : o.order_type = OrderType.StopLoss ∨
      o.order_type = OrderType.StopLimit)
    (hq : o.quantity ≠ 0) :
    (processOrder st o).1.metrics.rejected_orders =
      st.metrics.rejected_orders ∧
    (processOrder st o).1.metrics.total_orders =
      st.metrics.total_orders + 1 ∧
    (processOrder st o).1.books =
      setBook o.symbol
        (((findBook o.symbol st.books).add_order o).match_orders).2
        st.books := by
  have hnl : ¬ (o.order_type = OrderType.Limit ∧ o.price = none) := by
    rcases htype with h | h <;> rw [h] <;> simp
  unfold processOrder
  rw [if_neg hq, if_neg hnl]
  refine ⟨?_, ?_, rfl⟩
  · dsimp only
    split <;> rfl
  · dsimp only
    split <;> rfl

/-- Witness for C4 amended at the concrete StopLoss order on the empty
engine state. -/
theorem C4_stop_orders_not_rejected_witness :
    (processOrder EngineState.init stopOrder).1.metrics.rejected_orders =
      EngineState.init.metrics.rejected_orders ∧
    (processOrder EngineState.init stopOrder).1.metrics.total_orders =
      EngineState.init.metrics.total_orders + 1 ∧
    (processOrder EngineState.init stopOrder).1.books =
      setBook stopOrder.symbol
        (((findBook stopOrder.symbol EngineState.init.books).add_order
          stopOrder).match_orders).2
        EngineState.init.books :=
  C4_stop_orders_not_rejected EngineState.init stopOrder
    (Or.inl (by rfl)) (by decide)

end OrderEngine
